import Mathlib

/-!
Verification of the `pure_decimal` Decimal wrapper.

The crate wraps the external `d128` primitive of the `decimal` crate.  That
primitive is not part of this repository; per the specification it is a
black box offering finite/NaN/Infinite classification, total/partial
comparison, exact integer conversion, arithmetic operators, a literal
grammar and a default decimal formatting.  It is modelled here with exact
(unbounded-exponent) decimal payloads: a finite value is a coefficient and
a base-ten exponent, mirroring the cohort phenomenon of the decimal
encodings where `1.0` and `1.00` are distinct representations of equal
numeric values.
-/

/-- Modelled from the spec: a finite decimal payload of the underlying
primitive, the value `c * 10 ^ e`.  Distinct pairs can denote the same
numeric value, as distinct members of a decimal cohort do. -/
structure Dfin where
  c : ℤ
  e : ℤ
deriving DecidableEq

/-- Numeric value denoted by a finite payload. -/
def Dfin.toRat (f : Dfin) : ℚ :=
  if 0 ≤ f.e then ((f.c * 10 ^ f.e.toNat : ℤ) : ℚ)
  else (f.c : ℚ) / ((10 ^ (-f.e).toNat : ℤ) : ℚ)

/-- Modelled from the spec: the underlying primitive's value universe,
finite decimal values together with the NaN and signed-Infinity
classifications (`neg = true` is negative infinity). -/
inductive d128 : Type where
  | finite (f : Dfin)
  | nan
  | inf (neg : Bool)
deriving DecidableEq

def d128.is_nan : d128 → Bool
  | .nan => true
  | _ => false

def d128.is_infinite : d128 → Bool
  | .inf _ => true
  | _ => false

def d128.is_finite : d128 → Bool
  | .finite _ => true
  | _ => false

def d128.is_negative : d128 → Bool
  | .finite f => decide (f.c < 0)
  | .nan => false
  | .inf s => s

def d128.is_zero : d128 → Bool
  | .finite f => decide (f.c = 0)
  | _ => false

/-- The zero constant of the primitive. -/
def d128.zeroD : d128 := .finite ⟨0, 0⟩

/-- Modelled from the spec: exact conversion from a fixed-size integer;
the primitive's range covers the full span of the 32/64-bit widths, so the
conversion is exact and total. -/
def d128.ofInt (n : ℤ) : d128 := .finite ⟨n, 0⟩

/-- Common exponent and scaled coefficients of two finite payloads. -/
def Dfin.align (a b : Dfin) : ℤ × ℤ × ℤ :=
  (a.c * 10 ^ (a.e - min a.e b.e).toNat, b.c * 10 ^ (b.e - min a.e b.e).toNat, min a.e b.e)

def Dfin.add (a b : Dfin) : Dfin :=
  ⟨(Dfin.align a b).1 + (Dfin.align a b).2.1, (Dfin.align a b).2.2⟩

def Dfin.sub (a b : Dfin) : Dfin :=
  ⟨(Dfin.align a b).1 - (Dfin.align a b).2.1, (Dfin.align a b).2.2⟩

def Dfin.mul (a b : Dfin) : Dfin := ⟨a.c * b.c, a.e + b.e⟩

def Dfin.neg (a : Dfin) : Dfin := ⟨-a.c, a.e⟩

def Dfin.abs (a : Dfin) : Dfin := ⟨|a.c|, a.e⟩

/-- Exact comparison of two finite payloads by numeric value. -/
def Dfin.cmp (a b : Dfin) : Ordering :=
  if (Dfin.align a b).1 < (Dfin.align a b).2.1 then .lt
  else if (Dfin.align a b).1 = (Dfin.align a b).2.1 then .eq
  else .gt

/-- Floor of a rational, executable form. -/
def ratFloor (q : ℚ) : ℤ := q.num.fdiv (q.den : ℤ)

/-- Truncation of a rational toward zero, executable form. -/
def ratTrunc (q : ℚ) : ℤ := q.num.tdiv (q.den : ℤ)

/-- Modelled from the spec: the primitive rounds inexact results; the spec
treats the precision ceiling and rounding algorithm as black box, so an
inexact result is modelled by rounding to thirty-four fractional digits.
Only the finite classification of such results matters to the spec. -/
def Dfin.ofRatApprox (q : ℚ) : Dfin := ⟨ratFloor (q * 10 ^ (34 : ℕ)), -34⟩

/-- Exact quotient when representable is not guaranteed; division rounds. -/
def Dfin.divD (a b : Dfin) : Dfin := Dfin.ofRatApprox (a.toRat / b.toRat)

/-- Remainder after truncating integer division, as the primitive's
`rem` computes it on finite operands: `a - b * trunc(a / b)` (exact). -/
def Dfin.remD (a b : Dfin) : Dfin :=
  Dfin.sub a (Dfin.mul b ⟨ratTrunc (a.toRat / b.toRat), 0⟩)

/-- Modelled from the spec: the primitive's power operation; the spec
asserts only that the finite values are closed under it.  Integer
exponents are the exact (respectively rounded) powers; the numeric value
at a non-integer exponent is outside the spec's concerns and is modelled
by zero, its classification (finite) being the only specified aspect. -/
def Dfin.powD (a ex : Dfin) : Dfin :=
  let q := ex.toRat
  if q.den = 1 then
    if 0 ≤ q.num then ⟨a.c ^ q.num.toNat, a.e * q.num⟩
    else Dfin.ofRatApprox (a.toRat ^ q.num)
  else Dfin.ofRatApprox 0

/-- Partial comparison of the primitive: `none` (incomparable) exactly
when a NaN is involved; finite values and infinities always compare. -/
def d128.pcmp : d128 → d128 → Option Ordering
  | .nan, _ => none
  | _, .nan => none
  | .inf s, .inf t => some (if s = t then .eq else if s then .lt else .gt)
  | .inf s, .finite _ => some (if s then .lt else .gt)
  | .finite _, .inf t => some (if t then .gt else .lt)
  | .finite a, .finite b => some (Dfin.cmp a b)

/-- Value equality of the primitive: NaN is equal to nothing, including
itself; otherwise equality of the partial comparison with `eq`. -/
def d128.beqD (x y : d128) : Bool :=
  match d128.pcmp x y with
  | some Ordering.eq => true
  | _ => false

/-- Modelled from the spec: the primitive's hash normalizes
numerically-equal-but-differently-spelled values to the same bucket; here
the hash of a finite payload is the canonical fraction of its numeric
value, which two cohort members share. -/
def d128.hashD : d128 → ℤ × ℤ
  | .finite f => (f.toRat.num, (f.toRat.den : ℤ))
  | .nan => (0, 0)
  | .inf s => (if s then -1 else 1, 0)

/-- Addition of the primitive (exact on finite operands). -/
def d128.addD : d128 → d128 → d128
  | .nan, _ => .nan
  | _, .nan => .nan
  | .inf s, .inf t => if s = t then .inf s else .nan
  | .inf s, .finite _ => .inf s
  | .finite _, .inf t => .inf t
  | .finite a, .finite b => .finite (Dfin.add a b)

/-- Subtraction of the primitive (exact on finite operands). -/
def d128.subD : d128 → d128 → d128
  | .nan, _ => .nan
  | _, .nan => .nan
  | .inf s, .inf t => if s = t then .nan else .inf s
  | .inf s, .finite _ => .inf s
  | .finite _, .inf t => .inf (!t)
  | .finite a, .finite b => .finite (Dfin.sub a b)

/-- Multiplication of the primitive (exact on finite operands). -/
def d128.mulD : d128 → d128 → d128
  | .nan, _ => .nan
  | _, .nan => .nan
  | .inf s, .inf t => .inf (s != t)
  | .inf s, .finite f => if f.c = 0 then .nan else .inf (s != decide (f.c < 0))
  | .finite f, .inf t => if f.c = 0 then .nan else .inf (t != decide (f.c < 0))
  | .finite a, .finite b => .finite (Dfin.mul a b)

/-- Negation of the primitive. -/
def d128.negD : d128 → d128
  | .nan => .nan
  | .inf s => .inf (!s)
  | .finite f => .finite (Dfin.neg f)

/-- Absolute value of the primitive. -/
def d128.absD : d128 → d128
  | .nan => .nan
  | .inf _ => .inf false
  | .finite f => .finite (Dfin.abs f)

/-- Larger operand; a quiet NaN operand yields the other operand, as the
primitive's max does. -/
def d128.maxD (x y : d128) : d128 :=
  match x, y with
  | .nan, b => b
  | a, .nan => a
  | a, b =>
    match d128.pcmp a b with
    | some Ordering.lt => b
    | _ => a

/-- Smaller operand; a quiet NaN operand yields the other operand. -/
def d128.minD (x y : d128) : d128 :=
  match x, y with
  | .nan, b => b
  | a, .nan => a
  | a, b =>
    match d128.pcmp a b with
    | some Ordering.gt => b
    | _ => a

/-- Fused multiply-add of the primitive: `x * y + z`, exact multiply. -/
def d128.fmaD : d128 → d128 → d128 → d128
  | .finite a, .finite b, .finite c => .finite (Dfin.add (Dfin.mul a b) c)
  | _, _, _ => .nan

/-- Division of the primitive: a zero divisor gives NaN (zero over zero)
or a signed infinity; otherwise the rounded finite quotient. -/
def d128.divD : d128 → d128 → d128
  | .nan, _ => .nan
  | _, .nan => .nan
  | .inf _, .inf _ => .nan
  | .inf s, .finite f => .inf (s != decide (f.c < 0))
  | .finite _, .inf _ => .finite ⟨0, 0⟩
  | .finite a, .finite b =>
    if b.c = 0 then (if a.c = 0 then .nan else .inf (decide (a.c < 0)))
    else .finite (Dfin.divD a b)

/-- Remainder of the primitive: a zero divisor gives NaN; an infinite
operand gives NaN or the dividend back; otherwise the exact remainder. -/
def d128.remD : d128 → d128 → d128
  | .nan, _ => .nan
  | _, .nan => .nan
  | .inf _, _ => .nan
  | .finite a, .inf _ => .finite a
  | .finite a, .finite b =>
    if b.c = 0 then .nan else .finite (Dfin.remD a b)

/-- Powering of the primitive: finite values are closed under it per the
spec; a NaN or infinite operand is absorbed to NaN here, which no claim
touches because the wrapper's invariant excludes such operands. -/
def d128.powD : d128 → d128 → d128
  | .finite a, .finite b => .finite (Dfin.powD a b)
  | _, _ => .nan

/-- A decimal digit character. -/
def isDig (ch : Char) : Bool := 48 ≤ ch.toNat && ch.toNat ≤ 57

/-- Numeric value of a digit character. -/
def digVal (ch : Char) : ℕ := ch.toNat - 48

/-- Digit character of a value below ten. -/
def digChar (d : ℕ) : Char := Char.ofNat (48 + d)

/-- Value of a most-significant-first digit string. -/
def digitsToNat (l : List Char) : ℕ :=
  l.foldl (fun a ch => 10 * a + digVal ch) 0

/-- Lower-casing for the grammar's case-insensitive special spellings. -/
def lc (ch : Char) : Char :=
  if 65 ≤ ch.toNat ∧ ch.toNat ≤ 90 then Char.ofNat (ch.toNat + 32) else ch

def nanChars : List Char := ['n', 'a', 'n']

def infChars : List Char := ['i', 'n', 'f']

def infinityChars : List Char := ['i', 'n', 'f', 'i', 'n', 'i', 't', 'y']

/-- Exponent suffix of the literal grammar: nothing, or a marker `e`/`E`,
an optional sign and a nonempty digit run reaching the end of the text. -/
def parseExp (l : List Char) : Option ℤ :=
  match l with
  | [] => some 0
  | mark :: r =>
    if mark = 'e' ∨ mark = 'E' then
      let p : Bool × List Char :=
        match r with
        | [] => (false, [])
        | d :: t => if d = '+' then (false, t) else if d = '-' then (true, t) else (false, d :: t)
      if p.2 = [] ∨ p.2.any (fun x => !(isDig x)) then none
      else some (if p.1 then -(digitsToNat p.2 : ℤ) else (digitsToNat p.2 : ℤ))
    else none

/-- An integer digit run with no fractional part, then the exponent. -/
def parseNoFrac (ip r1 : List Char) : Option Dfin :=
  if ip = [] then none
  else
    match parseExp r1 with
    | some ex => some ⟨(digitsToNat ip : ℤ), ex⟩
    | none => none

/-- Modelled from the spec: the unsigned numeric part of the primitive's
literal grammar — decimal digits, an optional fractional part and an
optional exponent, with at least one digit present. -/
def parseNumeric (l : List Char) : Option Dfin :=
  let ip := l.takeWhile isDig
  let r1 := l.dropWhile isDig
  match r1 with
  | point :: r2 =>
    if point = '.' then
      let fp := r2.takeWhile isDig
      let r3 := r2.dropWhile isDig
      if ip = [] ∧ fp = [] then none
      else
        match parseExp r3 with
        | some ex => some ⟨(digitsToNat (ip ++ fp) : ℤ), ex - (fp.length : ℤ)⟩
        | none => none
    else parseNoFrac ip r1
  | [] => parseNoFrac ip r1

/-- Sign-stripped body of the grammar: the case-insensitive NaN and
Infinity spellings that the primitive's grammar accepts, or a numeric
literal. -/
def d128.fromCharsU (neg : Bool) (l : List Char) : Option d128 :=
  let low := l.map lc
  if low = nanChars then some .nan
  else if low = infChars ∨ low = infinityChars then some (.inf neg)
  else
    match parseNumeric l with
    | some f => some (.finite (if neg then Dfin.neg f else f))
    | none => none

/-- Modelled from the spec: the primitive's literal grammar over a
character list — an optional sign then a numeric literal or a NaN or
Infinity spelling; `none` is the grammar rejecting the text. -/
def d128.fromChars : List Char → Option d128
  | [] => none
  | ch :: r =>
    if ch = '+' then d128.fromCharsU false r
    else if ch = '-' then d128.fromCharsU true r
    else d128.fromCharsU false (ch :: r)

/-- Modelled from the spec: the primitive's string parser. -/
def d128.fromStr (s : String) : Option d128 := d128.fromChars s.toList

/-- Digit characters of a natural number, most significant first. -/
def natStr (n : ℕ) : List Char :=
  if n = 0 then ['0'] else ((Nat.digits 10 n).reverse.map digChar)

/-- Character rendering of an unsigned finite payload: the digits padded
or extended according to the exponent, a plain decimal literal. -/
def natChars (n : ℕ) (e : ℤ) : List Char :=
  if 0 ≤ e then natStr n ++ List.replicate e.toNat '0'
  else
    let k := (-e).toNat
    let s := natStr n
    if k < s.length then s.take (s.length - k) ++ '.' :: s.drop (s.length - k)
    else '0' :: '.' :: (List.replicate (k - s.length) '0' ++ s)

/-- Character rendering of a finite payload, sign included. -/
def Dfin.toChars (f : Dfin) : List Char :=
  if f.c < 0 then '-' :: natChars f.c.natAbs f.e else natChars f.c.natAbs f.e

/-- Modelled from the spec: the primitive's default decimal formatting,
the canonical textual representation of a value. -/
def d128.toStr : d128 → String
  | .nan => "NaN"
  | .inf neg => if neg then "-Infinity" else "Infinity"
  | .finite f => ⟨Dfin.toChars f⟩

/-- Modelled from the spec: the crate's uniform error value (its source
file `error.rs` is declared by the crate root but absent from `src/`); a
single opaque failure signal carrying a human-readable message. -/
structure Error where
  msg : String
deriving DecidableEq

/-- The wrapper type of `pure_decimal.rs`: a struct enclosing a `d128`. -/
structure Decimal where
  val : d128
deriving DecidableEq

/-- Invariant I1 of the spec: a Decimal never holds a value classified as
NaN or Infinite by the underlying primitive. -/
def Decimal.I1 (d : Decimal) : Prop :=
  d.val.is_nan = false ∧ d.val.is_infinite = false

instance (d : Decimal) : Decidable (Decimal.I1 d) :=
  inferInstanceAs (Decidable (_ ∧ _))

/-- `Decimal::zero`: a Decimal with `0` as value. -/
def Decimal.zero : Decimal := ⟨d128.zeroD⟩

/-- `Default for Decimal`: delegates to `zero`. -/
def Decimal.default : Decimal := Decimal.zero

/-- `Decimal::max`: the larger of `self` and `other`. -/
def Decimal.max (a b : Decimal) : Decimal := ⟨d128.maxD a.val b.val⟩

/-- `Decimal::min`: the smaller of `self` and `other`. -/
def Decimal.min (a b : Decimal) : Decimal := ⟨d128.minD a.val b.val⟩

/-- `Decimal::abs`. -/
def Decimal.abs (a : Decimal) : Decimal := ⟨d128.absD a.val⟩

/-- `Decimal::mul_add`: `self * a + b` fused. -/
def Decimal.mul_add (a b c : Decimal) : Decimal := ⟨d128.fmaD a.val b.val c.val⟩

/-- `Decimal::is_negative`. -/
def Decimal.is_negative (a : Decimal) : Bool := a.val.is_negative

/-- `Decimal::is_zero`. -/
def Decimal.is_zero (a : Decimal) : Bool := a.val.is_zero

/-- `Decimal::pow`. -/
def Decimal.pow (a ex : Decimal) : Decimal := ⟨d128.powD a.val ex.val⟩

/-- `Neg for Decimal` (both reference forms share this body). -/
def Decimal.neg (a : Decimal) : Decimal := ⟨d128.negD a.val⟩

/-- `Add for Decimal`: all four owned/by-reference impls share this body. -/
def Decimal.add (a b : Decimal) : Decimal := ⟨d128.addD a.val b.val⟩

/-- `Sub for Decimal`: all four owned/by-reference impls share this body. -/
def Decimal.sub (a b : Decimal) : Decimal := ⟨d128.subD a.val b.val⟩

/-- `Mul for Decimal`: all four owned/by-reference impls share this body. -/
def Decimal.mul (a b : Decimal) : Decimal := ⟨d128.mulD a.val b.val⟩

/-- The error every guarded operation reports on a non-finite result. -/
def nonFiniteError : Error := ⟨"Only finite value are supported"⟩

/-- `Div for Decimal` (guarded, all four owned/by-reference impls share
this body): `Ok` exactly when the raw primitive result is finite. -/
def Decimal.div (a b : Decimal) : Except Error Decimal :=
  let v := d128.divD a.val b.val
  if v.is_finite then Except.ok ⟨v⟩ else Except.error nonFiniteError

/-- `Rem for Decimal` (guarded, all four owned/by-reference impls share
this body): `Ok` exactly when the raw primitive result is finite. -/
def Decimal.rem (a b : Decimal) : Except Error Decimal :=
  let v := d128.remD a.val b.val
  if v.is_finite then Except.ok ⟨v⟩ else Except.error nonFiniteError

def parseError : Error := ⟨"Failed to parse"⟩

def nanError : Error := ⟨"NaN is not supported"⟩

def infinityError : Error := ⟨"Infinity is not supported"⟩

/-- `FromStr for Decimal`: parse through the primitive, then refuse a NaN
value, then refuse an infinite value, and otherwise wrap. -/
def Decimal.fromStr (s : String) : Except Error Decimal :=
  match d128.fromStr s with
  | some dec =>
    if dec.is_nan then Except.error nanError
    else if dec.is_infinite then Except.error infinityError
    else Except.ok ⟨dec⟩
  | none => Except.error parseError

/-- `PartialEq for Decimal`: delegates to the primitive's equality. -/
def Decimal.beq (a b : Decimal) : Bool := d128.beqD a.val b.val

/-- `PartialOrd for Decimal`: delegates to the primitive. -/
def Decimal.pcmpD (a b : Decimal) : Option Ordering := d128.pcmp a.val b.val

/-- `Ord for Decimal`: the `None` (incomparable) branch of the source is
`panic!("Ordering not possible. Possible bug")`, a fatal abort; it is
modelled by `none`, while `some` is the returned ordering. -/
def Decimal.cmp (a b : Decimal) : Option Ordering :=
  match d128.pcmp a.val b.val with
  | none => none
  | some ord => some ord

/-- `Hash for Decimal`: delegates to the primitive's hash. -/
def Decimal.hash (a : Decimal) : ℤ × ℤ := d128.hashD a.val

/-- `From<i32> for Decimal`: exact conversion. -/
def Decimal.fromI32 (n : ℤ) : Decimal := ⟨d128.ofInt n⟩

/-- `From<u32> for Decimal`: exact conversion. -/
def Decimal.fromU32 (n : ℕ) : Decimal := ⟨d128.ofInt n⟩

/-- `From<i64> for Decimal`: exact conversion. -/
def Decimal.fromI64 (n : ℤ) : Decimal := ⟨d128.ofInt n⟩

/-- `From<u64> for Decimal`: exact conversion. -/
def Decimal.fromU64 (n : ℕ) : Decimal := ⟨d128.ofInt n⟩

/-- Numeric value a Decimal denotes under the primitive's reading; the
non-finite payloads that invariant I1 excludes are read as zero. -/
def Decimal.numValue (d : Decimal) : ℚ :=
  match d.val with
  | .finite f => f.toRat
  | _ => 0

/-- Modelled from the spec: summation over a sequence of Decimal folds
left-to-right from the zero identity using plain addition; the crate
advertises it though no `Sum` implementation appears under `src/`. -/
def Decimal.sum (l : List Decimal) : Decimal :=
  l.foldl Decimal.add Decimal.zero

/-- Shapes of a structured external value offered to deserialization.  A
floating-point number is carried by its default decimal text, the form
the adapter immediately converts it to; any shape other than the three
accepted ones is `other`, named by what it was. -/
inductive SValue : Type where
  | str (s : String)
  | float (text : String)
  | int (n : ℤ)
  | uint (n : ℕ)
  | other (unexpected : String)
deriving DecidableEq

/-- Deserialization errors of the adapter: an invalid value of an
accepted shape, or an unexpected shape, each naming the expectation. -/
inductive DeError : Type where
  | invalidValue (unexpected : String) (expected : String)
  | invalidType (unexpected : String) (expected : String)
deriving DecidableEq

/-- The visitor's expectation text in `serde_impl.rs`. -/
def expectedMsg : String := "a Decimal value"

/-- `Serialize for Decimal` in `serde_impl.rs`: always a string holding
the primitive's default formatting of the value. -/
def Decimal.serialize (v : Decimal) : SValue := SValue.str (d128.toStr v.val)

/-- `Deserialize for Decimal` in `serde_impl.rs`: `visit_str` parses via
`from_str`, `visit_f64` parses the float's decimal text the same way,
`visit_i64` and `visit_u64` use the exact integer conversions, and every
other shape falls to the visitor's default, an unexpected-type error. -/
def Decimal.deserialize : SValue → Except DeError Decimal
  | .str s =>
    match Decimal.fromStr s with
    | Except.ok d => Except.ok d
    | Except.error _ => Except.error (DeError.invalidValue s expectedMsg)
  | .float t =>
    match Decimal.fromStr t with
    | Except.ok d => Except.ok d
    | Except.error _ => Except.error (DeError.invalidValue t expectedMsg)
  | .int n => Except.ok (Decimal.fromI64 n)
  | .uint n => Except.ok (Decimal.fromU64 n)
  | .other u => Except.error (DeError.invalidType u expectedMsg)

theorem pow_shift (e m : ℤ) (h : m ≤ e) :
    ((10 : ℚ) ^ (e - m).toNat) * (10 : ℚ) ^ m = (10 : ℚ) ^ e := by
  rw [← zpow_natCast (10 : ℚ) (e - m).toNat, Int.toNat_of_nonneg (by omega),
    ← zpow_add₀ (by norm_num : (10 : ℚ) ≠ 0)]
  congr 1
  omega

theorem Dfin.toRat_eq (f : Dfin) : f.toRat = (f.c : ℚ) * (10 : ℚ) ^ f.e := by
  unfold Dfin.toRat
  split
  · rename_i h
    push_cast
    rw [← zpow_natCast (10 : ℚ) f.e.toNat, Int.toNat_of_nonneg h]
  · rename_i h
    rw [div_eq_mul_inv]
    congr 1
    push_cast
    rw [← zpow_natCast (10 : ℚ) (-f.e).toNat, Int.toNat_of_nonneg (by omega),
      ← zpow_neg, neg_neg]

theorem Dfin.add_toRat (a b : Dfin) : (Dfin.add a b).toRat = a.toRat + b.toRat := by
  rw [Dfin.toRat_eq, Dfin.toRat_eq a, Dfin.toRat_eq b]
  show (((a.c * 10 ^ (a.e - min a.e b.e).toNat + b.c * 10 ^ (b.e - min a.e b.e).toNat : ℤ)) : ℚ) *
      (10 : ℚ) ^ (min a.e b.e) = _
  push_cast
  rw [add_mul, mul_assoc, mul_assoc, pow_shift a.e _ (min_le_left _ _),
    pow_shift b.e _ (min_le_right _ _)]

theorem Dfin.cmp_eq_iff (a b : Dfin) : Dfin.cmp a b = Ordering.eq ↔ a.toRat = b.toRat := by
  have hm : ((10 : ℚ) ^ (min a.e b.e)) ≠ 0 := zpow_ne_zero _ (by norm_num)
  have ha : ((a.c * 10 ^ (a.e - min a.e b.e).toNat : ℤ) : ℚ) * (10 : ℚ) ^ (min a.e b.e)
      = a.toRat := by
    rw [Dfin.toRat_eq]
    push_cast
    rw [mul_assoc, pow_shift a.e _ (min_le_left _ _)]
  have hb : ((b.c * 10 ^ (b.e - min a.e b.e).toNat : ℤ) : ℚ) * (10 : ℚ) ^ (min a.e b.e)
      = b.toRat := by
    rw [Dfin.toRat_eq]
    push_cast
    rw [mul_assoc, pow_shift b.e _ (min_le_right _ _)]
  rw [show Dfin.cmp a b = Ordering.eq ↔
        (Dfin.align a b).1 = (Dfin.align a b).2.1 by
      unfold Dfin.cmp
      split_ifs with h1 h2
      · exact iff_of_false (by decide) (by omega)
      · exact iff_of_true rfl h2
      · exact iff_of_false (by decide) (by omega)]
  unfold Dfin.align
  constructor
  · intro h
    rw [← ha, ← hb]
    simp only at h
    rw [h]
  · intro h
    rw [← ha, ← hb] at h
    have hxy := mul_right_cancel₀ hm h
    exact_mod_cast hxy

theorem d128.beqD_iff (x y : d128) : d128.beqD x y = true ↔ d128.pcmp x y = some Ordering.eq := by
  unfold d128.beqD
  cases h : d128.pcmp x y with
  | none => simp
  | some o => cases o <;> simp_all

theorem Decimal.beq_finite_iff (fa fb : Dfin) :
    Decimal.beq ⟨.finite fa⟩ ⟨.finite fb⟩ = true ↔ fa.toRat = fb.toRat := by
  rw [Decimal.beq, d128.beqD_iff]
  show some (Dfin.cmp fa fb) = some Ordering.eq ↔ _
  rw [Option.some_inj]
  exact Dfin.cmp_eq_iff fa fb

theorem Decimal.I1_iff (d : Decimal) : d.I1 ↔ ∃ f, d.val = d128.finite f := by
  obtain ⟨v⟩ := d
  cases v with
  | finite f => simp [Decimal.I1, d128.is_nan, d128.is_infinite]
  | nan => simp [Decimal.I1, d128.is_nan]
  | inf s => simp [Decimal.I1, d128.is_infinite]

theorem Decimal.I1_finite (f : Dfin) : (⟨d128.finite f⟩ : Decimal).I1 := ⟨rfl, rfl⟩

theorem digitsToNat_from (l : List Char) (a : ℕ) :
    List.foldl (fun a ch => 10 * a + digVal ch) a l = a * 10 ^ l.length + digitsToNat l := by
  induction l generalizing a with
  | nil => simp [digitsToNat]
  | cons x t ih =>
    show List.foldl _ (10 * a + digVal x) t = _
    rw [ih]
    have : digitsToNat (x :: t) = (10 * 0 + digVal x) * 10 ^ t.length + digitsToNat t := by
      rw [digitsToNat]
      show List.foldl _ (10 * 0 + digVal x) t = _
      rw [ih]
    rw [this]
    simp only [List.length_cons, pow_succ]
    ring

theorem digitsToNat_cons (x : Char) (l : List Char) :
    digitsToNat (x :: l) = digVal x * 10 ^ l.length + digitsToNat l := by
  rw [digitsToNat]
  show List.foldl _ (10 * 0 + digVal x) l = _
  rw [digitsToNat_from]
  ring

theorem digitsToNat_append (l1 l2 : List Char) :
    digitsToNat (l1 ++ l2) = digitsToNat l1 * 10 ^ l2.length + digitsToNat l2 := by
  rw [digitsToNat, List.foldl_append, ← digitsToNat, digitsToNat_from]

theorem digitsToNat_replicate_zero (k : ℕ) :
    digitsToNat (List.replicate k '0') = 0 := by
  induction k with
  | zero => rfl
  | succ k ih =>
    rw [List.replicate_succ, digitsToNat_cons, ih]
    rw [show digVal '0' = 0 from rfl]
    simp

theorem digVal_digChar {d : ℕ} (h : d < 10) : digVal (digChar d) = d := by
  interval_cases d <;> rfl

theorem isDig_digChar {d : ℕ} (h : d < 10) : isDig (digChar d) = true := by
  interval_cases d <;> rfl

theorem ne_of_isDig {ch x : Char} (h : isDig ch = true) (hx : isDig x = false) : ch ≠ x := by
  intro e
  rw [e, hx] at h
  cases h

theorem lc_of_isDig {ch : Char} (h : isDig ch = true) : lc ch = ch := by
  rw [lc, if_neg]
  intro hc
  rw [isDig] at h
  simp only [Bool.and_eq_true, decide_eq_true_eq] at h
  omega

theorem digitsToNat_revMap (L : List ℕ) (h : ∀ d ∈ L, d < 10) :
    digitsToNat ((L.map digChar).reverse) = Nat.ofDigits 10 L := by
  induction L with
  | nil => simp [digitsToNat, Nat.ofDigits_nil]
  | cons d L ih =>
    rw [List.map_cons, List.reverse_cons, digitsToNat_append,
      ih (fun x hx => h x (List.mem_cons_of_mem _ hx)), Nat.ofDigits_cons]
    have hd : digitsToNat [digChar d] = d := by
      rw [show [digChar d] = digChar d :: [] from rfl, digitsToNat_cons]
      simp [digitsToNat, digVal_digChar (h d (List.mem_cons_self _ _))]
    rw [hd]
    simp only [List.length_cons, List.length_nil, pow_one]
    ring

theorem natStr_all_digits (n : ℕ) : ∀ ch ∈ natStr n, isDig ch = true := by
  intro ch hch
  rw [natStr] at hch
  split at hch
  · simp only [List.mem_singleton] at hch
    rw [hch]
    rfl
  · simp only [List.mem_map, List.mem_reverse] at hch
    obtain ⟨d, hd, rfl⟩ := hch
    exact isDig_digChar (Nat.digits_lt_base (by norm_num) hd)

theorem natStr_ne_nil (n : ℕ) : natStr n ≠ [] := by
  rw [natStr]
  split
  · simp
  · rename_i h
    simp only [ne_eq, List.map_eq_nil_iff, List.reverse_eq_nil_iff]
    exact Nat.digits_ne_nil_iff_ne_zero.mpr h

theorem digitsToNat_natStr (n : ℕ) : digitsToNat (natStr n) = n := by
  rw [natStr]
  split
  · rename_i h
    rw [h]
    rfl
  · rw [List.map_reverse,
      digitsToNat_revMap _ (fun d hd => Nat.digits_lt_base (by norm_num) hd)]
    exact Nat.ofDigits_digits 10 n

theorem takeWhile_all {l : List Char} (h : ∀ ch ∈ l, isDig ch = true) :
    l.takeWhile isDig = l := by
  rw [← List.append_nil l, List.takeWhile_append_of_pos (by simpa using h)]
  simp

theorem dropWhile_all {l : List Char} (h : ∀ ch ∈ l, isDig ch = true) :
    l.dropWhile isDig = [] := by
  rw [← List.append_nil l, List.dropWhile_append_of_pos (by simpa using h)]
  simp

theorem takeWhile_stop (l1 l2 : List Char) (x : Char)
    (h : ∀ ch ∈ l1, isDig ch = true) (hx : isDig x = false) :
    (l1 ++ x :: l2).takeWhile isDig = l1 := by
  rw [List.takeWhile_append_of_pos h, List.takeWhile_cons, if_neg (by simp [hx])]
  simp

theorem dropWhile_stop (l1 l2 : List Char) (x : Char)
    (h : ∀ ch ∈ l1, isDig ch = true) (hx : isDig x = false) :
    (l1 ++ x :: l2).dropWhile isDig = x :: l2 := by
  rw [List.dropWhile_append_of_pos h, List.dropWhile_cons, if_neg (by simp [hx])]

theorem parseNumeric_digits {l : List Char} (hne : l ≠ [])
    (hd : ∀ ch ∈ l, isDig ch = true) :
    parseNumeric l = some ⟨(digitsToNat l : ℤ), 0⟩ := by
  simp only [parseNumeric, takeWhile_all hd, dropWhile_all hd]
  rw [parseNoFrac, if_neg hne]
  rfl

theorem parseNumeric_dot {ds1 ds2 : List Char}
    (h1 : ∀ ch ∈ ds1, isDig ch = true) (h2 : ∀ ch ∈ ds2, isDig ch = true)
    (hne : ds1 ≠ []) :
    parseNumeric (ds1 ++ '.' :: ds2) =
      some ⟨(digitsToNat (ds1 ++ ds2) : ℤ), -(ds2.length : ℤ)⟩ := by
  have ht := takeWhile_stop ds1 ds2 '.' h1 (by decide)
  have hdw := dropWhile_stop ds1 ds2 '.' h1 (by decide)
  simp only [parseNumeric, ht, hdw]
  rw [if_pos trivial, takeWhile_all h2, dropWhile_all h2, if_neg (by simp [hne]),
    show parseExp [] = some 0 from rfl]
  simp

theorem fromCharsU_of_parse {neg : Bool} {c : Char} {r : List Char} {f : Dfin}
    (hc : isDig c = true) (hp : parseNumeric (c :: r) = some f) :
    d128.fromCharsU neg (c :: r) = some (.finite (if neg then Dfin.neg f else f)) := by
  have hmap : (c :: r).map lc = c :: r.map lc := by
    rw [List.map_cons, lc_of_isDig hc]
  have hnan : ¬(c :: List.map lc r = nanChars) := by
    intro h
    injection h with h1 _
    exact absurd h1 (ne_of_isDig hc (by decide))
  have hinf : ¬(c :: List.map lc r = infChars ∨ c :: List.map lc r = infinityChars) := by
    rintro (h | h) <;>
      · injection h with h1 _
        exact absurd h1 (ne_of_isDig hc (by decide))
  simp only [d128.fromCharsU, hmap]
  rw [if_neg hnan, if_neg hinf, hp]

theorem fromChars_digit {c : Char} {r : List Char} (hc : isDig c = true) :
    d128.fromChars (c :: r) = d128.fromCharsU false (c :: r) := by
  simp only [d128.fromChars]
  rw [if_neg (ne_of_isDig hc (by decide)), if_neg (ne_of_isDig hc (by decide))]

theorem fromChars_neg (r : List Char) :
    d128.fromChars ('-' :: r) = d128.fromCharsU true r := by
  simp only [d128.fromChars]
  rw [if_neg (by decide), if_pos trivial]

theorem natChars_eq_pos (n : ℕ) (e : ℤ) (he : 0 ≤ e) :
    natChars n e = natStr n ++ List.replicate e.toNat '0' := by
  rw [natChars, if_pos he]

theorem natChars_eq_mid (n : ℕ) (e : ℤ) (he : ¬ 0 ≤ e)
    (hk : (-e).toNat < (natStr n).length) :
    natChars n e = (natStr n).take ((natStr n).length - (-e).toNat) ++
      '.' :: (natStr n).drop ((natStr n).length - (-e).toNat) := by
  simp only [natChars]
  rw [if_neg he, if_pos hk]

theorem natChars_eq_small (n : ℕ) (e : ℤ) (he : ¬ 0 ≤ e)
    (hk : ¬ (-e).toNat < (natStr n).length) :
    natChars n e = '0' :: '.' ::
      (List.replicate ((-e).toNat - (natStr n).length) '0' ++ natStr n) := by
  simp only [natChars]
  rw [if_neg he, if_neg hk]

theorem toRat_negExp (n k : ℕ) :
    (Dfin.mk (n : ℤ) (-(k : ℤ))).toRat = (n : ℚ) * (10 : ℚ) ^ (-(k : ℤ)) := by
  rw [Dfin.toRat_eq]
  push_cast
  ring

theorem parseNumeric_natChars (n : ℕ) (e : ℤ) :
    ∃ g : Dfin, parseNumeric (natChars n e) = some g ∧
      g.toRat = (n : ℚ) * (10 : ℚ) ^ e := by
  by_cases he : 0 ≤ e
  · have hall : ∀ ch ∈ natStr n ++ List.replicate e.toNat '0', isDig ch = true := by
      intro ch hch
      rcases List.mem_append.mp hch with h | h
      · exact natStr_all_digits n ch h
      · rw [List.eq_of_mem_replicate h]
        decide
    have hne : natStr n ++ List.replicate e.toNat '0' ≠ [] := by
      simp [natStr_ne_nil n]
    refine ⟨⟨(digitsToNat (natStr n ++ List.replicate e.toNat '0') : ℤ), 0⟩, ?_, ?_⟩
    · rw [natChars_eq_pos n e he]
      exact parseNumeric_digits hne hall
    · rw [digitsToNat_append, digitsToNat_natStr, digitsToNat_replicate_zero,
        List.length_replicate, Dfin.toRat_eq]
      push_cast
      rw [zpow_zero, mul_one, add_zero, ← zpow_natCast (10 : ℚ) e.toNat,
        Int.toNat_of_nonneg he]
  · have hke : (((-e).toNat : ℕ) : ℤ) = -e := Int.toNat_of_nonneg (by omega)
    by_cases hk : (-e).toNat < (natStr n).length
    · have h1 : ∀ ch ∈ (natStr n).take ((natStr n).length - (-e).toNat), isDig ch = true :=
        fun ch hch => natStr_all_digits n ch (List.take_subset _ _ hch)
      have h2 : ∀ ch ∈ (natStr n).drop ((natStr n).length - (-e).toNat), isDig ch = true :=
        fun ch hch => natStr_all_digits n ch (List.drop_subset _ _ hch)
      have hne : (natStr n).take ((natStr n).length - (-e).toNat) ≠ [] := by
        apply List.ne_nil_of_length_pos
        rw [List.length_take]
        exact lt_min (by omega) (by omega)
      refine ⟨⟨(digitsToNat ((natStr n).take ((natStr n).length - (-e).toNat) ++
          (natStr n).drop ((natStr n).length - (-e).toNat)) : ℤ),
          -((((natStr n).drop ((natStr n).length - (-e).toNat)).length : ℕ) : ℤ)⟩, ?_, ?_⟩
      · rw [natChars_eq_mid n e he hk]
        exact parseNumeric_dot h1 h2 hne
      · rw [List.take_append_drop, digitsToNat_natStr, List.length_drop]
        have hlen : (natStr n).length - ((natStr n).length - (-e).toNat) = (-e).toNat := by
          omega
        rw [hlen, toRat_negExp]
        have he2 : -((((-e).toNat : ℕ)) : ℤ) = e := by omega
        rw [he2]
    · have h2 : ∀ ch ∈ List.replicate ((-e).toNat - (natStr n).length) '0' ++ natStr n,
          isDig ch = true := by
        intro ch hch
        rcases List.mem_append.mp hch with h | h
        · rw [List.eq_of_mem_replicate h]
          decide
        · exact natStr_all_digits n ch h
      refine ⟨⟨(digitsToNat (['0'] ++ (List.replicate ((-e).toNat - (natStr n).length) '0' ++
          natStr n)) : ℤ),
          -(((List.replicate ((-e).toNat - (natStr n).length) '0' ++ natStr n).length : ℕ) : ℤ)⟩,
          ?_, ?_⟩
      · rw [natChars_eq_small n e he hk,
          show ('0' :: '.' :: (List.replicate ((-e).toNat - (natStr n).length) '0' ++ natStr n))
            = ['0'] ++ '.' :: (List.replicate ((-e).toNat - (natStr n).length) '0' ++ natStr n)
            from rfl]
        exact parseNumeric_dot (by decide) h2 (by decide)
      · have hD : digitsToNat (['0'] ++ (List.replicate ((-e).toNat - (natStr n).length) '0' ++
            natStr n)) = n := by
          rw [digitsToNat_append, digitsToNat_append, digitsToNat_natStr,
            digitsToNat_replicate_zero, show digitsToNat ['0'] = 0 from rfl]
          simp
        have hL : (List.replicate ((-e).toNat - (natStr n).length) '0' ++ natStr n).length
            = (-e).toNat := by
          rw [List.length_append, List.length_replicate]
          omega
        rw [hD, hL, toRat_negExp]
        have he2 : -((((-e).toNat : ℕ)) : ℤ) = e := by omega
        rw [he2]

theorem Dfin.neg_toRat (a : Dfin) : (Dfin.neg a).toRat = -a.toRat := by
  rw [Dfin.toRat_eq, Dfin.toRat_eq]
  show ((-a.c : ℤ) : ℚ) * (10 : ℚ) ^ a.e = _
  push_cast
  ring

theorem natChars_cons (n : ℕ) (e : ℤ) :
    ∃ c t, natChars n e = c :: t ∧ isDig c = true := by
  obtain ⟨c0, t0, hs⟩ := List.exists_cons_of_ne_nil (natStr_ne_nil n)
  have hd0 : isDig c0 = true := natStr_all_digits n c0 (by rw [hs]; exact List.mem_cons_self _ _)
  by_cases he : 0 ≤ e
  · rw [natChars_eq_pos n e he, hs, List.cons_append]
    exact ⟨c0, _, rfl, hd0⟩
  · by_cases hk : (-e).toNat < (natStr n).length
    · obtain ⟨m', hm'⟩ : ∃ m', (natStr n).length - (-e).toNat = m' + 1 :=
        ⟨(natStr n).length - (-e).toNat - 1, by omega⟩
      rw [natChars_eq_mid n e he hk, hm', hs, List.take_succ_cons, List.cons_append]
      exact ⟨c0, _, rfl, hd0⟩
    · rw [natChars_eq_small n e he hk]
      exact ⟨'0', _, rfl, by decide⟩

theorem fromChars_toChars (f : Dfin) :
    ∃ g : Dfin, d128.fromChars (Dfin.toChars f) = some (.finite g) ∧
      g.toRat = f.toRat := by
  obtain ⟨g, hp, hv⟩ := parseNumeric_natChars f.c.natAbs f.e
  obtain ⟨c0, t0, hsh, hd0⟩ := natChars_cons f.c.natAbs f.e
  by_cases hc : f.c < 0
  · refine ⟨Dfin.neg g, ?_, ?_⟩
    · rw [Dfin.toChars, if_pos hc, fromChars_neg, hsh]
      rw [hsh] at hp
      rw [fromCharsU_of_parse hd0 hp]
      simp
    · rw [Dfin.neg_toRat, hv, Dfin.toRat_eq, Int.cast_natAbs, Int.cast_abs,
        abs_of_neg (show (f.c : ℚ) < 0 by exact_mod_cast hc)]
      ring
  · refine ⟨g, ?_, ?_⟩
    · rw [Dfin.toChars, if_neg hc, hsh]
      rw [hsh] at hp
      rw [fromChars_digit hd0, fromCharsU_of_parse hd0 hp]
      simp
    · rw [hv, Dfin.toRat_eq, Int.cast_natAbs, Int.cast_abs,
        abs_of_nonneg (show (0 : ℚ) ≤ (f.c : ℚ) by exact_mod_cast not_lt.mp hc)]

theorem fromStr_toStr_finite (f : Dfin) :
    ∃ g : Dfin, d128.fromStr (d128.toStr (.finite f)) = some (.finite g) ∧
      g.toRat = f.toRat := by
  obtain ⟨g, hg, hv⟩ := fromChars_toChars f
  exact ⟨g, hg, hv⟩

theorem d128.maxD_finite (fa fb : Dfin) :
    ∃ h, d128.maxD (.finite fa) (.finite fb) = .finite h := by
  rw [show d128.maxD (.finite fa) (.finite fb) =
      (match d128.pcmp (.finite fa) (.finite fb) with
        | some Ordering.lt => d128.finite fb
        | _ => d128.finite fa) from rfl,
    show d128.pcmp (.finite fa) (.finite fb) = some (Dfin.cmp fa fb) from rfl]
  cases Dfin.cmp fa fb
  · exact ⟨fb, rfl⟩
  · exact ⟨fa, rfl⟩
  · exact ⟨fa, rfl⟩

theorem d128.minD_finite (fa fb : Dfin) :
    ∃ h, d128.minD (.finite fa) (.finite fb) = .finite h := by
  rw [show d128.minD (.finite fa) (.finite fb) =
      (match d128.pcmp (.finite fa) (.finite fb) with
        | some Ordering.gt => d128.finite fb
        | _ => d128.finite fa) from rfl,
    show d128.pcmp (.finite fa) (.finite fb) = some (Dfin.cmp fa fb) from rfl]
  cases Dfin.cmp fa fb
  · exact ⟨fa, rfl⟩
  · exact ⟨fa, rfl⟩
  · exact ⟨fb, rfl⟩

/-- C1: for every pair of Decimal operands, division and remainder succeed
with a Decimal exactly when the raw primitive result classifies as finite
and otherwise fail with the non-finite-result error, constructing no
Decimal; in particular division of finite operands by a nonzero finite
divisor succeeds (with the invariant I1 intact), and division of a finite
operand by zero fails with the non-finite-result error.  The four
owned/by-reference operator implementations share one body each, embedded
once as `Decimal.div` and `Decimal.rem`. -/
theorem div_rem_guarded_iff_finite :
    (∀ a b : Decimal,
      ((d128.divD a.val b.val).is_finite = true →
        Decimal.div a b = Except.ok ⟨d128.divD a.val b.val⟩) ∧
      ((d128.divD a.val b.val).is_finite = false →
        Decimal.div a b = Except.error nonFiniteError) ∧
      ((d128.remD a.val b.val).is_finite = true →
        Decimal.rem a b = Except.ok ⟨d128.remD a.val b.val⟩) ∧
      ((d128.remD a.val b.val).is_finite = false →
        Decimal.rem a b = Except.error nonFiniteError)) ∧
    (∀ a b : Decimal, Decimal.I1 a → Decimal.I1 b → Decimal.is_zero b = false →
      ∃ d, Decimal.div a b = Except.ok d ∧ Decimal.I1 d) ∧
    (∀ a : Decimal, Decimal.I1 a →
      Decimal.div a Decimal.zero = Except.error nonFiniteError) := by
  refine ⟨fun a b => ⟨?_, ?_, ?_, ?_⟩, ?_, ?_⟩
  · intro h
    simp [Decimal.div, h]
  · intro h
    simp [Decimal.div, h]
  · intro h
    simp [Decimal.rem, h]
  · intro h
    simp [Decimal.rem, h]
  · intro a b ha hb hz
    obtain ⟨fa, hfa⟩ := (Decimal.I1_iff a).mp ha
    obtain ⟨fb, hfb⟩ := (Decimal.I1_iff b).mp hb
    have hz' : ¬ fb.c = 0 := by
      rw [Decimal.is_zero, hfb] at hz
      simpa [d128.is_zero] using hz
    have hdd : d128.divD a.val b.val = .finite (Dfin.divD fa fb) := by
      rw [hfa, hfb]
      simp [d128.divD, hz']
    exact ⟨⟨.finite (Dfin.divD fa fb)⟩, by simp [Decimal.div, hdd, d128.is_finite],
      Decimal.I1_finite _⟩
  · intro a ha
    obtain ⟨fa, hfa⟩ := (Decimal.I1_iff a).mp ha
    by_cases h0 : fa.c = 0
    · have hdd : d128.divD a.val Decimal.zero.val = .nan := by
        rw [hfa]
        simp [Decimal.zero, d128.zeroD, d128.divD, h0]
      simp [Decimal.div, hdd, d128.is_finite]
    · have hdd : d128.divD a.val Decimal.zero.val = .inf (decide (fa.c < 0)) := by
        rw [hfa]
        simp [Decimal.zero, d128.zeroD, d128.divD, h0]
      simp [Decimal.div, hdd, d128.is_finite]

theorem div_rem_guarded_iff_finite_witness :
    (∃ d, Decimal.div (Decimal.fromI64 6) (Decimal.fromI64 3) = Except.ok d ∧
      Decimal.I1 d) ∧
    Decimal.div (Decimal.fromI64 1) Decimal.zero = Except.error nonFiniteError :=
  ⟨div_rem_guarded_iff_finite.2.1 _ _ ⟨rfl, rfl⟩ ⟨rfl, rfl⟩ (by decide),
    div_rem_guarded_iff_finite.2.2 _ ⟨rfl, rfl⟩⟩

/-- C3: on inputs satisfying invariant I1, each unguarded operation of the
wrapper — `abs`, `neg`, `max`, `min`, `mul_add`, `pow` and the unguarded
binary `add`, `sub`, `mul` — is total (it returns a `Decimal`, with no
error path in its type) and its result again satisfies I1. -/
theorem unguarded_total_preserves_I1 :
    ∀ a b c : Decimal, Decimal.I1 a → Decimal.I1 b → Decimal.I1 c →
      Decimal.I1 (Decimal.add a b) ∧ Decimal.I1 (Decimal.sub a b) ∧
      Decimal.I1 (Decimal.mul a b) ∧ Decimal.I1 (Decimal.abs a) ∧
      Decimal.I1 (Decimal.neg a) ∧ Decimal.I1 (Decimal.max a b) ∧
      Decimal.I1 (Decimal.min a b) ∧ Decimal.I1 (Decimal.mul_add a b c) ∧
      Decimal.I1 (Decimal.pow a b) := by
  intro a b c ha hb hc
  obtain ⟨fa, hfa⟩ := (Decimal.I1_iff a).mp ha
  obtain ⟨fb, hfb⟩ := (Decimal.I1_iff b).mp hb
  obtain ⟨fc, hfc⟩ := (Decimal.I1_iff c).mp hc
  obtain ⟨hmax, hmaxeq⟩ := d128.maxD_finite fa fb
  obtain ⟨hmin, hmineq⟩ := d128.minD_finite fa fb
  refine ⟨?_, ?_, ?_, ?_, ?_, ?_, ?_, ?_, ?_⟩
  · rw [Decimal.add, hfa, hfb]
    exact Decimal.I1_finite _
  · rw [Decimal.sub, hfa, hfb]
    exact Decimal.I1_finite _
  · rw [Decimal.mul, hfa, hfb]
    exact Decimal.I1_finite _
  · rw [Decimal.abs, hfa]
    exact Decimal.I1_finite _
  · rw [Decimal.neg, hfa]
    exact Decimal.I1_finite _
  · rw [Decimal.max, hfa, hfb, hmaxeq]
    exact Decimal.I1_finite _
  · rw [Decimal.min, hfa, hfb, hmineq]
    exact Decimal.I1_finite _
  · rw [Decimal.mul_add, hfa, hfb, hfc]
    exact Decimal.I1_finite _
  · rw [Decimal.pow, hfa, hfb]
    exact Decimal.I1_finite _

theorem unguarded_total_preserves_I1_witness :
    Decimal.I1 (Decimal.add Decimal.zero Decimal.zero) ∧
    Decimal.I1 (Decimal.pow Decimal.zero Decimal.zero) :=
  ⟨(unguarded_total_preserves_I1 Decimal.zero Decimal.zero Decimal.zero
      ⟨rfl, rfl⟩ ⟨rfl, rfl⟩ ⟨rfl, rfl⟩).1,
    (unguarded_total_preserves_I1 Decimal.zero Decimal.zero Decimal.zero
      ⟨rfl, rfl⟩ ⟨rfl, rfl⟩ ⟨rfl, rfl⟩).2.2.2.2.2.2.2.2⟩

/-- C5: for Decimals satisfying invariant I1 the total-order comparison
always produces an ordering — the incomparable branch, which the source
makes a fatal `panic!` abort (modelled by `none` in `Decimal.cmp`) rather
than a recoverable error value, is never reached; and that branch is taken
exactly when the primitive's partial comparison is incomparable. -/
theorem cmp_total_on_finite :
    (∀ a b : Decimal, Decimal.I1 a → Decimal.I1 b →
      ∃ o, Decimal.cmp a b = some o ∧ d128.pcmp a.val b.val = some o) ∧
    (∀ a b : Decimal, Decimal.cmp a b = none ↔ d128.pcmp a.val b.val = none) := by
  constructor
  · intro a b ha hb
    obtain ⟨fa, hfa⟩ := (Decimal.I1_iff a).mp ha
    obtain ⟨fb, hfb⟩ := (Decimal.I1_iff b).mp hb
    refine ⟨Dfin.cmp fa fb, ?_, ?_⟩
    · rw [Decimal.cmp, hfa, hfb]
      rfl
    · rw [hfa, hfb]
      rfl
  · intro a b
    rw [Decimal.cmp]
    cases h : d128.pcmp a.val b.val <;> simp

theorem cmp_total_on_finite_witness :
    ∃ o, Decimal.cmp Decimal.zero Decimal.zero = some o ∧
      d128.pcmp Decimal.zero.val Decimal.zero.val = some o :=
  cmp_total_on_finite.1 Decimal.zero Decimal.zero ⟨rfl, rfl⟩ ⟨rfl, rfl⟩

instance {e a : Type} [DecidableEq e] [DecidableEq a] : DecidableEq (Except e a) := fun x y =>
  match x, y with
  | .ok u, .ok v => decidable_of_iff (u = v) (by simp)
  | .error u, .error v => decidable_of_iff (u = v) (by simp)
  | .ok _, .error _ => isFalse (by simp)
  | .error _, .ok _ => isFalse (by simp)

/-- C2: for every input string, `from_str` fails with the parse error
exactly when the primitive's grammar rejects the text, fails with exactly
one of the two non-finite reasons (NaN reported first, Infinity otherwise)
exactly when the accepted text denotes a NaN or infinite value, and
otherwise wraps the parsed finite value; every successful result satisfies
invariant I1, so no NaN or Infinity spelling produces a Decimal; the three
error messages are pairwise distinct. -/
theorem fromStr_error_classification :
    (∀ s : String,
      (d128.fromStr s = none ∧ Decimal.fromStr s = Except.error parseError) ∨
      (∃ v, d128.fromStr s = some v ∧ v.is_nan = true ∧
        Decimal.fromStr s = Except.error nanError) ∨
      (∃ v, d128.fromStr s = some v ∧ v.is_nan = false ∧ v.is_infinite = true ∧
        Decimal.fromStr s = Except.error infinityError) ∨
      (∃ v, d128.fromStr s = some v ∧ v.is_finite = true ∧
        Decimal.fromStr s = Except.ok ⟨v⟩)) ∧
    (∀ s d, Decimal.fromStr s = Except.ok d → Decimal.I1 d) ∧
    (parseError ≠ nanError ∧ parseError ≠ infinityError ∧ nanError ≠ infinityError) := by
  refine ⟨?_, ?_, by decide, by decide, by decide⟩
  · intro s
    cases h : d128.fromStr s with
    | none =>
      left
      exact ⟨rfl, by simp [Decimal.fromStr, h]⟩
    | some v =>
      cases v with
      | finite f =>
        right; right; right
        exact ⟨.finite f, rfl, rfl, by simp [Decimal.fromStr, h, d128.is_nan, d128.is_infinite]⟩
      | nan =>
        right; left
        exact ⟨.nan, rfl, rfl, by simp [Decimal.fromStr, h, d128.is_nan]⟩
      | inf sg =>
        right; right; left
        exact ⟨.inf sg, rfl, rfl, rfl,
          by simp [Decimal.fromStr, h, d128.is_nan, d128.is_infinite]⟩
  · intro s d hd
    rw [Decimal.fromStr] at hd
    cases h : d128.fromStr s with
    | none => rw [h] at hd; cases hd
    | some v =>
      rw [h] at hd
      cases v with
      | finite f =>
        simp only [d128.is_nan, d128.is_infinite, Bool.false_eq_true, if_false] at hd
        cases hd
        exact Decimal.I1_finite f
      | nan => simp [d128.is_nan] at hd
      | inf sg => simp [d128.is_nan, d128.is_infinite] at hd

theorem fromStr_error_classification_witness :
    Decimal.I1 ⟨d128.finite ⟨15, -1⟩⟩ :=
  fromStr_error_classification.2.1 "1.5" ⟨d128.finite ⟨15, -1⟩⟩ (by decide)

/-- C4: equality of Decimals is value-based — under invariant I1 two
Decimals compare equal exactly when the primitive reads them as the same
numeric value; the spellings "1.0" and "1.00" parse to distinct payload
representations that compare equal; and equal Decimals always hash
equal. -/
theorem eq_value_based_hash_consistent :
    (∀ a b : Decimal, Decimal.I1 a → Decimal.I1 b →
      (Decimal.beq a b = true ↔ Decimal.numValue a = Decimal.numValue b)) ∧
    (∃ x y : Decimal, Decimal.fromStr "1.0" = Except.ok x ∧
      Decimal.fromStr "1.00" = Except.ok y ∧ x.val ≠ y.val ∧
      Decimal.beq x y = true) ∧
    (∀ a b : Decimal, Decimal.beq a b = true → Decimal.hash a = Decimal.hash b) := by
  refine ⟨?_, ?_, ?_⟩
  · intro a b ha hb
    obtain ⟨va⟩ := a
    obtain ⟨vb⟩ := b
    obtain ⟨fa, hfa⟩ := (Decimal.I1_iff _).mp ha
    obtain ⟨fb, hfb⟩ := (Decimal.I1_iff _).mp hb
    cases hfa
    cases hfb
    rw [Decimal.beq_finite_iff]
    exact Iff.rfl
  · exact ⟨⟨.finite ⟨10, -1⟩⟩, ⟨.finite ⟨100, -2⟩⟩, by decide, by decide, by decide, by decide⟩
  · intro a b h
    rw [Decimal.beq, d128.beqD_iff] at h
    obtain ⟨va⟩ := a
    obtain ⟨vb⟩ := b
    show d128.hashD va = d128.hashD vb
    cases va with
    | nan => simp [d128.pcmp] at h
    | inf s =>
      cases vb with
      | nan => simp [d128.pcmp] at h
      | finite fb =>
        simp only [d128.pcmp, Option.some_inj] at h
        cases s <;> simp at h
      | inf t =>
        simp only [d128.pcmp, Option.some_inj] at h
        by_cases hst : s = t
        · rw [hst]
        · rw [if_neg hst] at h
          cases s <;> cases t <;> simp_all
    | finite fa =>
      cases vb with
      | nan => simp [d128.pcmp] at h
      | inf t =>
        simp only [d128.pcmp, Option.some_inj] at h
        cases t <;> simp at h
      | finite fb =>
        simp only [d128.pcmp, Option.some_inj] at h
        have hv := (Dfin.cmp_eq_iff fa fb).mp h
        simp [d128.hashD, hv]

theorem eq_value_based_hash_consistent_witness :
    Decimal.beq Decimal.zero Decimal.zero = true :=
  (eq_value_based_hash_consistent.1 Decimal.zero Decimal.zero ⟨rfl, rfl⟩ ⟨rfl, rfl⟩).mpr rfl

theorem numValue_ofInt (n : ℤ) : Decimal.numValue ⟨d128.ofInt n⟩ = (n : ℚ) := by
  show Dfin.toRat ⟨n, 0⟩ = (n : ℚ)
  rw [Dfin.toRat_eq, zpow_zero, mul_one]

/-- C8: conversion to Decimal from each 32-bit and 64-bit signed and
unsigned integer value is total (no error path in its type), exact — the
resulting Decimal denotes precisely that integer — and establishes
invariant I1. -/
theorem int_conversions_exact :
    (∀ n : ℤ, -(2 ^ 31) ≤ n → n < 2 ^ 31 →
      Decimal.numValue (Decimal.fromI32 n) = (n : ℚ) ∧ Decimal.I1 (Decimal.fromI32 n)) ∧
    (∀ n : ℕ, n < 2 ^ 32 →
      Decimal.numValue (Decimal.fromU32 n) = (n : ℚ) ∧ Decimal.I1 (Decimal.fromU32 n)) ∧
    (∀ n : ℤ, -(2 ^ 63) ≤ n → n < 2 ^ 63 →
      Decimal.numValue (Decimal.fromI64 n) = (n : ℚ) ∧ Decimal.I1 (Decimal.fromI64 n)) ∧
    (∀ n : ℕ, n < 2 ^ 64 →
      Decimal.numValue (Decimal.fromU64 n) = (n : ℚ) ∧ Decimal.I1 (Decimal.fromU64 n)) := by
  refine ⟨fun n _ _ => ⟨numValue_ofInt n, Decimal.I1_finite _⟩,
    fun n _ => ⟨?_, Decimal.I1_finite _⟩,
    fun n _ _ => ⟨numValue_ofInt n, Decimal.I1_finite _⟩,
    fun n _ => ⟨?_, Decimal.I1_finite _⟩⟩
  · rw [show Decimal.fromU32 n = ⟨d128.ofInt (n : ℤ)⟩ from rfl, numValue_ofInt]
    push_cast
    ring
  · rw [show Decimal.fromU64 n = ⟨d128.ofInt (n : ℤ)⟩ from rfl, numValue_ofInt]
    push_cast
    ring

theorem int_conversions_exact_witness :
    Decimal.numValue (Decimal.fromI32 5) = (5 : ℚ) ∧ Decimal.I1 (Decimal.fromI32 5) :=
  int_conversions_exact.1 5 (by norm_num) (by norm_num)

/-- C9: summation over a sequence of Decimal values is the left fold of
plain addition from the zero identity, total by its type; the sequence
1, 2, 3, 4 sums to a Decimal equal to 10.  The crate's spec advertises the
summation (over values or references) though no implementation of it
appears under `src/`; `Decimal.sum` is modelled from the spec. -/
theorem sum_foldl_zero_add :
    Decimal.sum [] = Decimal.zero ∧
    (∀ (l : List Decimal) (x : Decimal),
      Decimal.sum (l ++ [x]) = Decimal.add (Decimal.sum l) x) ∧
    Decimal.beq (Decimal.sum
      [Decimal.fromI64 1, Decimal.fromI64 2, Decimal.fromI64 3, Decimal.fromI64 4])
      (Decimal.fromI64 10) = true := by
  refine ⟨rfl, ?_, by decide⟩
  intro l x
  rw [Decimal.sum, Decimal.sum, List.foldl_append]
  rfl

/-- C10: the default Decimal is the zero constant (the `Default`
implementation delegates to `zero`), and under invariant I1 it is an
additive identity on both sides of the unguarded addition, up to the
value-based equality of the wrapper. -/
theorem default_is_zero_identity :
    Decimal.default = Decimal.zero ∧
    Decimal.beq Decimal.default Decimal.zero = true ∧
    (∀ a : Decimal, Decimal.I1 a →
      Decimal.beq (Decimal.add a Decimal.default) a = true ∧
      Decimal.beq (Decimal.add Decimal.default a) a = true) := by
  refine ⟨rfl, by decide, ?_⟩
  intro a ha
  obtain ⟨va⟩ := a
  obtain ⟨fa, hfa⟩ := (Decimal.I1_iff _).mp ha
  cases hfa
  have hz : Dfin.toRat ⟨0, 0⟩ = 0 := by
    rw [Dfin.toRat_eq]
    norm_num
  constructor
  · show Decimal.beq ⟨.finite (Dfin.add fa ⟨0, 0⟩)⟩ ⟨.finite fa⟩ = true
    rw [Decimal.beq_finite_iff, Dfin.add_toRat, hz, add_zero]
  · show Decimal.beq ⟨.finite (Dfin.add ⟨0, 0⟩ fa)⟩ ⟨.finite fa⟩ = true
    rw [Decimal.beq_finite_iff, Dfin.add_toRat, hz, zero_add]

theorem default_is_zero_identity_witness :
    Decimal.beq (Decimal.add (Decimal.fromI64 7) Decimal.default) (Decimal.fromI64 7) = true ∧
    Decimal.beq (Decimal.add Decimal.default (Decimal.fromI64 7)) (Decimal.fromI64 7) = true :=
  default_is_zero_identity.2.2 (Decimal.fromI64 7) ⟨rfl, rfl⟩

/-- C6: inbound deserialization accepts exactly three shapes — a string
parsed by `from_str`, a floating-point number carried by its default
decimal text and re-parsed the same way, and signed or unsigned integers
through the never-failing exact conversions — and rejects every other
shape with an unexpected-type error expecting "a Decimal value"; the
integer 1234, the float 1234.0 (whose default decimal text is "1234") and
the string "1234" deserialize to equal Decimal values. -/
theorem deserialize_three_shapes :
    (∀ s : String,
      (∃ d, Decimal.fromStr s = Except.ok d ∧
        Decimal.deserialize (SValue.str s) = Except.ok d) ∨
      ((∃ er, Decimal.fromStr s = Except.error er) ∧
        Decimal.deserialize (SValue.str s) =
          Except.error (DeError.invalidValue s expectedMsg))) ∧
    (∀ t : String,
      (∃ d, Decimal.fromStr t = Except.ok d ∧
        Decimal.deserialize (SValue.float t) = Except.ok d) ∨
      ((∃ er, Decimal.fromStr t = Except.error er) ∧
        Decimal.deserialize (SValue.float t) =
          Except.error (DeError.invalidValue t expectedMsg))) ∧
    (∀ n : ℤ, Decimal.deserialize (SValue.int n) = Except.ok (Decimal.fromI64 n)) ∧
    (∀ n : ℕ, Decimal.deserialize (SValue.uint n) = Except.ok (Decimal.fromU64 n)) ∧
    (∀ u : String, Decimal.deserialize (SValue.other u) =
      Except.error (DeError.invalidType u expectedMsg)) ∧
    (∃ d1 d2 d3 : Decimal,
      Decimal.deserialize (SValue.int 1234) = Except.ok d1 ∧
      Decimal.deserialize (SValue.float "1234") = Except.ok d2 ∧
      Decimal.deserialize (SValue.str "1234") = Except.ok d3 ∧
      Decimal.beq d1 d2 = true ∧ Decimal.beq d2 d3 = true ∧
      Decimal.beq d1 d3 = true) := by
  refine ⟨?_, ?_, fun n => rfl, fun n => rfl, fun u => rfl, ?_⟩
  · intro s
    cases h : Decimal.fromStr s with
    | ok d =>
      left
      exact ⟨d, rfl, by simp [Decimal.deserialize, h]⟩
    | error er =>
      right
      exact ⟨⟨er, rfl⟩, by simp [Decimal.deserialize, h]⟩
  · intro t
    cases h : Decimal.fromStr t with
    | ok d =>
      left
      exact ⟨d, rfl, by simp [Decimal.deserialize, h]⟩
    | error er =>
      right
      exact ⟨⟨er, rfl⟩, by simp [Decimal.deserialize, h]⟩
  · exact ⟨Decimal.fromI64 1234, ⟨.finite ⟨1234, 0⟩⟩, ⟨.finite ⟨1234, 0⟩⟩,
      rfl, by decide, by decide, by decide, by decide, by decide⟩

/-- C7: outbound serialization of a Decimal is always the string shape
holding the primitive's default formatting of the value, never a numeric
shape; and under invariant I1 deserializing the emitted string yields a
Decimal equal to the original. -/
theorem serialize_string_roundtrip :
    (∀ v : Decimal, Decimal.serialize v = SValue.str (d128.toStr v.val)) ∧
    (∀ v : Decimal, Decimal.I1 v →
      ∃ w, Decimal.deserialize (Decimal.serialize v) = Except.ok w ∧
        Decimal.beq w v = true) := by
  refine ⟨fun v => rfl, ?_⟩
  intro v hv
  obtain ⟨vv⟩ := v
  obtain ⟨fv, hfv⟩ := (Decimal.I1_iff _).mp hv
  cases hfv
  obtain ⟨g, hg, hval⟩ := fromStr_toStr_finite fv
  have hfs : Decimal.fromStr (d128.toStr (.finite fv)) = Except.ok ⟨.finite g⟩ := by
    rw [Decimal.fromStr, hg]
    simp [d128.is_nan, d128.is_infinite]
  refine ⟨⟨.finite g⟩, ?_, ?_⟩
  · show Decimal.deserialize (SValue.str (d128.toStr (.finite fv))) = _
    simp [Decimal.deserialize, hfs]
  · exact (Decimal.beq_finite_iff g fv).mpr hval

theorem serialize_string_roundtrip_witness :
    ∃ w, Decimal.deserialize (Decimal.serialize (Decimal.fromI64 3)) = Except.ok w ∧
      Decimal.beq w (Decimal.fromI64 3) = true :=
  serialize_string_roundtrip.2 (Decimal.fromI64 3) ⟨rfl, rfl⟩
